import Mathlib

/-!
Verification of the retrieval subsystem of the LeafraSDK RAG utility
(`sdk/utility/pyrag/my_streamlit_app.py`): page attribution, the FAISS-backed
vector store with persistence, and the orchestrator's ingest/query paths.

Python strings are embedded as `List Char`; the Python string operations used
by the source (`strip`, `replace`, `split`, the `in` substring test) are given
executable definitions with Python's exact semantics.  NumPy / float
computation is embedded over `ℚ`; the floating-point square root used by
`np.linalg.norm` is an explicit parameter `sq : ℚ → ℚ`, so every theorem below
holds for every interpretation of the square root, in particular the IEEE one.
-/

namespace LeafraRag

/-- Characters Python's `str.strip()` removes (ASCII whitespace). -/
def isPySpace (c : Char) : Bool :=
  c = ' ' || c = '\t' || c = '\n' || c = '\r' || c = Char.ofNat 11 || c = Char.ofNat 12

/-- Python `s.strip()`: drop leading and trailing whitespace. -/
def pyStrip (s : List Char) : List Char :=
  ((s.dropWhile isPySpace).reverse.dropWhile isPySpace).reverse

/-- Fuelled core of Python `str.replace`: scan left to right, replacing each
non-overlapping occurrence of `pat` by `rep`.  The fuel bounds the number of
steps; each step consumes at least one character, so `s.length` fuel is enough. -/
def pyReplaceAux : Nat → List Char → List Char → List Char → List Char
  | 0, s, _, _ => s
  | _ + 1, [], _, _ => []
  | fuel + 1, c :: rest, pat, rep =>
    if pat ≠ [] ∧ pat.isPrefixOf (c :: rest) then
      rep ++ pyReplaceAux fuel (List.drop pat.length (c :: rest)) pat rep
    else
      c :: pyReplaceAux fuel rest pat rep

/-- Python `s.replace(pat, rep)` (for non-empty `pat`). -/
def pyReplace (s pat rep : List Char) : List Char :=
  pyReplaceAux s.length s pat rep

/-- Python `s.split(sep)` for a one-character separator: keeps empty fragments,
`"".split(sep) = [""]`. -/
def pySplit (s : List Char) (sep : Char) : List (List Char) :=
  match s with
  | [] => [[]]
  | c :: rest =>
    if c = sep then [] :: pySplit rest sep
    else
      match pySplit rest sep with
      | [] => [[c]]
      | t :: ts => (c :: t) :: ts

/-- Python `needle in hay` for strings: substring test. -/
def containsSub (hay needle : List Char) : Bool :=
  match hay with
  | [] => needle.isEmpty
  | c :: rest => needle.isPrefixOf (c :: rest) || containsSub rest needle

/-- One page of extracted PDF text: `{'page_number': ..., 'text': ...}`. -/
structure PageInfo where
  pageNumber : Nat
  text : List Char
deriving DecidableEq

/-- `chunk_text.strip().replace('\n', ' ').replace('  ', ' ')`
(`RAGSystem._find_chunk_pages`, chunk normalization). -/
def normChunk (s : List Char) : List Char :=
  pyReplace (pyReplace (pyStrip s) ("\n".data) (" ".data)) ("  ".data) (" ".data)

/-- `page_info['text'].replace('\n', ' ').replace('  ', ' ')`
(`RAGSystem._find_chunk_pages`, page normalization — no strip). -/
def normPage (s : List Char) : List Char :=
  pyReplace (pyReplace s ("\n".data) (" ".data)) ("  ".data) (" ".data)

/-- Body of the page loop of `RAGSystem._find_chunk_pages`: given the already
normalized chunk text, decide whether one page is attributed.  Long chunks
(`len(chunk_clean) > 50`): split on `'.'`, strip, keep fragments with
`len > 10`; attribute when `matches > len(chunk_sentences) * 0.5`.  Short
chunks: attribute when the whole normalized chunk is a substring of the page. -/
def pageMatch (chunkClean : List Char) (pageInfo : PageInfo) : Option Nat :=
  let pageTextClean := normPage pageInfo.text
  if 50 < chunkClean.length then
    let chunkSentences := ((pySplit chunkClean '.').map pyStrip).filter (fun t => 10 < t.length)
    if chunkSentences.isEmpty then none
    else
      let matchCount := chunkSentences.countP (fun sentence => containsSub pageTextClean sentence)
      if ((matchCount : ℚ) > (chunkSentences.length : ℚ) * 0.5) then some pageInfo.pageNumber
      else none
  else
    if containsSub pageTextClean chunkClean then some pageInfo.pageNumber else none

/-- `RAGSystem._find_chunk_pages(chunk_text, pages_info)`: normalize the chunk,
then scan the pages in document order collecting the attributed page numbers. -/
def findChunkPages (chunkText : List Char) (pagesInfo : List PageInfo) : List Nat :=
  let chunkClean := normChunk chunkText
  pagesInfo.filterMap (fun pageInfo => pageMatch chunkClean pageInfo)


/- ### numeric model and the vector store -/

/-- An embedding vector: a row of the NumPy float arrays, over exact rationals. -/
abbrev Vec := List ℚ

/-- Sum of squares of a vector (the radicand of `np.linalg.norm`). -/
def sumSq (v : Vec) : ℚ := (v.map (fun x => x * x)).sum

/-- Inner product of two vectors (the score FAISS's `IndexFlatIP` computes). -/
def innerQ (q v : Vec) : ℚ := (List.zipWith (fun a b => a * b) q v).sum

/-- `v / np.linalg.norm(v)`: componentwise division by the Euclidean norm.
The floating-point square root has no exact rational counterpart, so it is an
explicit parameter `sq`; every theorem about the store holds for every `sq`. -/
def normalizeVec (sq : ℚ → ℚ) (v : Vec) : Vec := v.map (fun x => x / sq (sumSq v))

/-- `embeddings / np.linalg.norm(embeddings, axis=1, keepdims=True)`:
row-wise normalization (`VectorStore.add_documents`). -/
def normalizeRows (sq : ℚ → ℚ) (embeddings : List Vec) : List Vec :=
  embeddings.map (normalizeVec sq)

/-- The metadata dictionary attached to a document or chunk; fields are the
keys the source reads or writes (`pages_info`, `chunk_id`, `chunk_count`,
`page_numbers`, `primary_page`), absent keys are `none` / `[]`. -/
structure Meta where
  pagesInfo : List PageInfo
  chunkId : Option Nat
  chunkCount : Option Nat
  pageNumbers : Option (List Nat)
  primaryPage : Option Nat
deriving DecidableEq

/-- A metadata dictionary with no keys set. -/
def emptyMeta : Meta := ⟨[], none, none, none, none⟩

/-- The `Document` dataclass: `content` and `metadata`. -/
structure Document where
  content : List Char
  metadata : Meta
deriving DecidableEq

/-- One search result dict: `{"content", "metadata", "score", "rank"}`. -/
structure SearchResult where
  content : List Char
  metadata : Meta
  score : ℚ
  rank : Nat
deriving DecidableEq

/-- The FAISS `IndexFlatIP`: a dimension and the stored vectors in insertion
order. -/
structure FaissIndex where
  d : Nat
  vectors : List Vec
deriving DecidableEq

/-- `index.add(vs)`: append the rows of `vs` to the stored vectors. -/
def FaissIndex.add (idx : FaissIndex) (vs : List Vec) : FaissIndex :=
  ⟨idx.d, idx.vectors ++ vs⟩

/-- Result ordering of FAISS inner-product search: higher score first, equal
scores broken in favor of the smaller (earlier-inserted) id. -/
def rcmp (a b : ℚ × Int) : Prop := b.1 < a.1 ∨ (a.1 = b.1 ∧ a.2 ≤ b.2)

instance : DecidableRel rcmp := fun a b =>
  inferInstanceAs (Decidable (b.1 < a.1 ∨ (a.1 = b.1 ∧ a.2 ≤ b.2)))

instance : IsTrans (ℚ × Int) rcmp where
  trans a b c hab hbc := by
    rcases hab with h1 | h1 <;> rcases hbc with h2 | h2
    · exact Or.inl (lt_trans h2 h1)
    · exact Or.inl (h2.1 ▸ h1)
    · exact Or.inl (h1.1.symm ▸ h2)
    · exact Or.inr ⟨h1.1.trans h2.1, le_trans h1.2 h2.2⟩

instance : IsTotal (ℚ × Int) rcmp where
  total a b := by
    rcases lt_trichotomy a.1 b.1 with h | h | h
    · exact Or.inr (Or.inl h)
    · rcases le_total a.2 b.2 with h2 | h2
      · exact Or.inl (Or.inr ⟨h, h2⟩)
      · exact Or.inr (Or.inr ⟨h.symm, h2⟩)
    · exact Or.inl (Or.inl h)

/-- Modelled from the spec: `faiss.IndexFlatIP.search` is external to this
repository.  Per §4.3 of the spec it computes the inner product of the query
against every stored vector and returns the top `k` by descending score, ties
broken by insertion order (earlier entries win); when fewer than `k` vectors
are stored, the remaining slots carry id `-1` (which the caller filters out). -/
def FaissIndex.searchQ (idx : FaissIndex) (q : Vec) (k : Nat) : List (ℚ × Int) :=
  let scored := idx.vectors.enum.map (fun p => (innerQ q p.2, (p.1 : Int)))
  let sorted := List.insertionSort rcmp scored
  let valid := sorted.take k
  valid ++ List.replicate (k - valid.length) (0, -1)

/-- Loop body of `VectorStore.search`: a `(score, idx)` pair at position `i`
of the returned arrays becomes a result dict with `rank = i + 1` when
`idx != -1`, and is skipped otherwise. -/
def searchHit (docs : List (List Char)) (md : List Meta) (p : Nat × (ℚ × Int)) :
    Option SearchResult :=
  if p.2.2 ≠ -1 then
    some ⟨docs.getD p.2.2.toNat [], md.getD p.2.2.toNat emptyMeta, p.2.1, p.1 + 1⟩
  else none

/-- Persisted artifacts: the binary FAISS file written by `faiss.write_index`
and the pickle holding `{"documents", "metadata", "dimension"}`.  The external
serializers are modelled as faithful (what was written is what is read). -/
inductive FileData where
  | faissFile (idx : FaissIndex)
  | pklFile (documents : List (List Char)) (metadata : List Meta) (dimension : Nat)
deriving DecidableEq

/-- The file system: an association list from paths to file contents; writing
prepends, `os.path.exists` / reading consult the most recent entry. -/
abbrev FS := List (List Char × FileData)

def fsLookup : FS → List Char → Option FileData
  | [], _ => none
  | (k, v) :: rest, p => if p = k then some v else fsLookup rest p

/-- `os.path.exists(p)`. -/
def fsExists (fs : FS) (p : List Char) : Bool := (fsLookup fs p).isSome

/-- The `VectorStore`: FAISS index plus the parallel `documents` and
`metadata` lists and the optional persistence path prefix. -/
structure VectorStore where
  dimension : Nat
  index : FaissIndex
  documents : List (List Char)
  metadata : List Meta
  indexPath : Option (List Char)
deriving DecidableEq

/-- The field assignments of `VectorStore.__init__` (before the load check):
empty `IndexFlatIP(dimension)`, empty document and metadata lists. -/
def VectorStore.mk0 (dimension : Nat) (indexPath : Option (List Char)) : VectorStore :=
  ⟨dimension, ⟨dimension, []⟩, [], [], indexPath⟩

/-- `VectorStore.load`: if an index path is set, read the `.faiss` artifact if
present (replacing the FAISS index), then the `.pkl` artifact if present
(replacing documents, metadata and dimension). -/
def VectorStore.load (s : VectorStore) (fs : FS) : VectorStore :=
  match s.indexPath with
  | none => s
  | some p =>
    let s1 := match fsLookup fs (p ++ ".faiss".data) with
      | some (FileData.faissFile idx) => { s with index := idx }
      | _ => s
    match fsLookup fs (p ++ ".pkl".data) with
    | some (FileData.pklFile docs md dim) =>
      { s1 with documents := docs, metadata := md, dimension := dim }
    | _ => s1

/-- `VectorStore.__init__(dimension, index_path)`: assign the fields, then
`if index_path and os.path.exists(index_path): self.load()` — note the
existence check is on the bare path prefix. -/
def VectorStore.init (dimension : Nat) (indexPath : Option (List Char)) (fs : FS) :
    VectorStore :=
  let s := VectorStore.mk0 dimension indexPath
  match indexPath with
  | some p => if fsExists fs p then s.load fs else s
  | none => s

/-- `VectorStore.save`: if an index path is set, write the FAISS index to
`{index_path}.faiss` and the pickle to `{index_path}.pkl`. -/
def VectorStore.save (s : VectorStore) (fs : FS) : FS :=
  match s.indexPath with
  | none => fs
  | some p =>
    (p ++ ".pkl".data, FileData.pklFile s.documents s.metadata s.dimension) ::
      (p ++ ".faiss".data, FileData.faissFile s.index) :: fs

/-- `VectorStore.add_documents(documents, embeddings)`: L2-normalize the
embedding rows, `index.add` them, and extend the parallel content and
metadata lists. -/
def VectorStore.addDocuments (sq : ℚ → ℚ) (s : VectorStore) (documents : List Document)
    (embeddings : List Vec) : VectorStore :=
  let nembs := normalizeRows sq embeddings
  { s with
      index := s.index.add nembs,
      documents := s.documents ++ documents.map (fun doc => doc.content),
      metadata := s.metadata ++ documents.map (fun doc => doc.metadata) }

/-- `VectorStore.search(query_embedding, k)`: normalize the query, run the
FAISS search, and keep the hits with a valid id, ranked `i + 1` by position. -/
def VectorStore.search (sq : ℚ → ℚ) (s : VectorStore) (queryEmbedding : Vec) (k : Nat) :
    List SearchResult :=
  let qn := normalizeVec sq queryEmbedding
  let pairs := s.index.searchQ qn k
  pairs.enum.filterMap (searchHit s.documents s.metadata)

/-- The Embedding Provider.  The external SentenceTransformer model is
modelled from the spec's capability interface (§6): a fixed per-text
embedding function, applied to each input text (`model.encode(texts)` returns
one vector per text). -/
structure EmbeddingProvider where
  modelName : List Char
  embed : List Char → Vec

/-- `EmbeddingProvider.encode(texts)`: E5 models (`"e5" in self.model_name`)
get the `"passage: "` prefix, then the model embeds each text. -/
def EmbeddingProvider.encode (p : EmbeddingProvider) (texts : List (List Char)) :
    List Vec :=
  let texts2 := if containsSub p.modelName ("e5".data) then
      texts.map (fun text => "passage: ".data ++ text)
    else texts
  texts2.map p.embed

/-- `EmbeddingProvider.encode_query(query)`: E5 models get the `"query: "`
prefix, then the model embeds the query. -/
def EmbeddingProvider.encodeQuery (p : EmbeddingProvider) (query : List Char) : Vec :=
  let query2 := if containsSub p.modelName ("e5".data) then "query: ".data ++ query
    else query
  p.embed query2

/-- The dict returned by `RAGSystem.query`: the optional answer (`none` models
both Python `None` and an absent key), the source metadata, and the ranked
search results. -/
structure QueryResult where
  answer : Option (List Char)
  sources : List Meta
  searchResults : List SearchResult

/-- The "nothing found" sentinel answer. -/
def noRelevantMsg : List Char := "No relevant documents found.".data

/-- `sep.join(parts)`. -/
def joinSep (sep : List Char) : List (List Char) → List Char
  | [] => []
  | [t] => t
  | t :: rest => t ++ sep ++ joinSep sep rest

/-- `"\n\n".join(f"[Source {i+1}]: {content}" for each ranked result)`. -/
def contextBlock (results : List SearchResult) : List Char :=
  joinSep ("\n\n".data)
    (results.enum.map (fun p =>
      "[Source ".data ++ (Nat.toDigits 10 (p.1 + 1)) ++ "]: ".data ++ p.2.content))

/-- The RAG orchestrator state: embedding provider, vector store, optional
generation backend (`generate(question, context)`, absent when the provider
is "none"), and the text splitter.  The LLM backend and the LangChain
`RecursiveCharacterTextSplitter` are external capabilities, modelled from the
spec as opaque functions. -/
structure RAGSystem where
  embeddingProvider : EmbeddingProvider
  vectorStore : VectorStore
  llm : Option (List Char → List Char → List Char)
  splitText : List Char → List (List Char)

/-- `RAGSystem.query(question, k)` (the non-debug path): embed the query,
search, and assemble the result dict.  With zero search results the answer is
the sentinel if an LLM is configured and `None` otherwise, with empty sources
and results; with results but no LLM, no answer key is produced; otherwise
the LLM generates from the ranked context block. -/
def RAGSystem.query (sq : ℚ → ℚ) (sys : RAGSystem) (question : List Char) (k : Nat) :
    QueryResult :=
  let queryEmbedding := sys.embeddingProvider.encodeQuery question
  let searchResults := sys.vectorStore.search sq queryEmbedding k
  if searchResults = [] then
    ⟨if sys.llm.isSome then some noRelevantMsg else none, [], []⟩
  else
    match sys.llm with
    | none => ⟨none, searchResults.map (fun r => r.metadata), searchResults⟩
    | some gen =>
      ⟨some (gen question (contextBlock searchResults)),
        searchResults.map (fun r => r.metadata), searchResults⟩

/-- `RAGSystem.add_document(document)`: split into chunks, build the chunk
documents with `chunk_id` / `chunk_count` and — when the document carries page
info — `page_numbers` (always) and `primary_page` (only when non-empty),
embed all chunk texts in one batched call, add to the vector store, and save.
Returns the new system state and the file system after the save. -/
def RAGSystem.addDocument (sq : ℚ → ℚ) (sys : RAGSystem) (fs : FS) (document : Document) :
    RAGSystem × FS :=
  let chunks := sys.splitText document.content
  let chunkDocs := chunks.enum.map (fun p =>
    let m0 := { document.metadata with
      chunkId := some p.1, chunkCount := some chunks.length }
    let m1 := if document.metadata.pagesInfo ≠ [] then
        let pageNumbers := findChunkPages p.2 document.metadata.pagesInfo
        { m0 with pageNumbers := some pageNumbers, primaryPage := pageNumbers.head? }
      else m0
    Document.mk p.2 m1)
  let chunkTexts := chunkDocs.map (fun doc => doc.content)
  let embeddings := sys.embeddingProvider.encode chunkTexts
  let vs := sys.vectorStore.addDocuments sq chunkDocs embeddings
  ({ sys with vectorStore := vs }, vs.save fs)

/-- The central alignment invariant: the three parallel stores have equal
length. -/
abbrev AlignedStore (s : VectorStore) : Prop :=
  s.documents.length = s.index.vectors.length ∧
  s.metadata.length = s.index.vectors.length

/-- A sequence of `add_documents` calls. -/
def runAdds (sq : ℚ → ℚ) : VectorStore → List (List Document × List Vec) → VectorStore
  | s, [] => s
  | s, op :: ops => runAdds sq (s.addDocuments sq op.1 op.2) ops

/- ### concrete inputs used by the attribution claims -/

/-- Two-page scenario document from the spec's testable properties. -/
def scenarioPages : List PageInfo :=
  [⟨1, "The cat sat. It slept all day.".data⟩, ⟨2, "The dog ran far. It barked loudly.".data⟩]

/-- Scenario chunk (normalized length 17 ≤ 50). -/
def scenarioChunk : List Char := "It slept all day.".data

/-- A chunk whose normalized form is 55 characters long: one 10-character
sentence fragment followed by 3-character fragments. -/
def tenCharChunk : List Char :=
  "abcdefghij. aaa. bbb. ccc. ddd. eee. fff. ggg. hhh. iii".data

/-- Single page containing exactly the 10-character fragment. -/
def tenCharPages : List PageInfo := [⟨1, "abcdefghij".data⟩]

/-- The long-chunk attribution rule exactly as claim C6 words it: candidate
sentences are the period-split fragments, trimmed, with fragments *shorter
than 10 characters* discarded (so 10-character fragments are kept); a page is
attributed when strictly more than half of the surviving candidates occur as
substrings of the page's normalized text.  Stated from the claim's words to be
compared against the source's `findChunkPages`. -/
def claimC6Attrib (chunkText : List Char) (pagesInfo : List PageInfo) : List Nat :=
  let c := normChunk chunkText
  let sentences := ((pySplit c '.').map pyStrip).filter (fun t => 10 ≤ t.length)
  (pagesInfo.filter (fun pg =>
    sentences.length <
      2 * sentences.countP (fun sentence => containsSub (normPage pg.text) sentence))).map
    PageInfo.pageNumber

/- ### concrete inputs used by the vector store claims -/

/-- A sample document. -/
def demoDoc : Document := ⟨"hello world".data, emptyMeta⟩

/-- One balanced `add_documents` call. -/
def demoOps : List (List Document × List Vec) := [([demoDoc], [[1, 0]])]

/-- An empty store of dimension 2 with no persistence path. -/
def demoInit : VectorStore := VectorStore.mk0 2 none

/-- Path prefix a session would use. -/
def c3Path : List Char := "rag_index_m".data

/-- A store with one entry, bound to the path prefix. -/
def c3Store : VectorStore :=
  (VectorStore.mk0 2 (some c3Path)).addDocuments (fun x => x) [demoDoc] [[1, 0]]

/-- The file system after that session saves. -/
def c3FS : FS := c3Store.save []

/-- A store with one entry and no path (for the zero-vector claim). -/
def c4Store : VectorStore :=
  (VectorStore.mk0 2 none).addDocuments (fun x => x) [demoDoc] [[1, 0]]

/-- The all-zero query/input vector of dimension 2. -/
def zeroVec2 : Vec := [0, 0]

/-- A store with two entries (embeddings `[1,0]` and `[0,1]`). -/
def c5Store : VectorStore :=
  (VectorStore.mk0 2 none).addDocuments (fun x => x)
    [demoDoc, ⟨"second doc".data, emptyMeta⟩] [[1, 0], [0, 1]]

/-- A non-E5 embedding provider with a constant model function. -/
def demoProvider : EmbeddingProvider := ⟨"all-MiniLM-L6-v2".data, fun _ => [0, 0]⟩

/-- An orchestrator with an empty store, no LLM backend, and a splitter that
produces no chunks. -/
def demoSystem : RAGSystem := ⟨demoProvider, VectorStore.mk0 2 none, none, fun _ => []⟩

/- ### helper lemmas on the list combinators -/

theorem filterMap_congr_own {α β : Type} {f g : α → Option β} (l : List α)
    (h : ∀ a ∈ l, f a = g a) : l.filterMap f = l.filterMap g := by
  induction l with
  | nil => rfl
  | cons a t ih =>
    rw [List.filterMap_cons, List.filterMap_cons, h a (List.mem_cons_self a t),
      ih (fun b hb => h b (List.mem_cons_of_mem a hb))]

theorem filterMap_ite {α β : Type} (p : α → Bool) (f : α → β) (l : List α) :
    l.filterMap (fun a => if p a then some (f a) else none) = (l.filter p).map f := by
  induction l with
  | nil => rfl
  | cons a t ih =>
    cases hpa : p a <;> simp [List.filterMap_cons, List.filter_cons, hpa, ih]

theorem filterMap_ite_prop {α β : Type} (p : α → Prop) [DecidablePred p] (f : α → β)
    (l : List α) :
    l.filterMap (fun a => if p a then some (f a) else none) =
      (l.filter (fun a => decide (p a))).map f := by
  induction l with
  | nil => rfl
  | cons a t ih =>
    by_cases hpa : p a <;>
      simp [List.filterMap_cons, List.filter_cons, hpa, ih]

theorem half_lt_iff (m n : Nat) : ((m : ℚ) > (n : ℚ) * 0.5) ↔ n < 2 * m := by
  constructor
  · intro h
    have h2 : (n : ℚ) < 2 * (m : ℚ) := by linarith
    exact_mod_cast h2
  · intro h
    have h2 : (n : ℚ) < 2 * (m : ℚ) := by exact_mod_cast h
    linarith

/- characters of a `pyReplaceAux` output come from the input or the replacement -/
theorem mem_pyReplaceAux {c : Char} :
    ∀ (fuel : Nat) (s pat rep : List Char), c ∈ pyReplaceAux fuel s pat rep → c ∈ s ∨ c ∈ rep := by
  intro fuel
  induction fuel with
  | zero => intro s pat rep h; exact Or.inl h
  | succ n ih =>
    intro s pat rep h
    match s with
    | [] => simp [pyReplaceAux] at h
    | d :: rest =>
      rw [pyReplaceAux] at h
      by_cases hc : pat ≠ [] ∧ pat.isPrefixOf (d :: rest)
      · rw [if_pos hc] at h
        rcases List.mem_append.mp h with h1 | h1
        · exact Or.inr h1
        · rcases ih _ _ _ h1 with h2 | h2
          · exact Or.inl (List.drop_subset _ _ h2)
          · exact Or.inr h2
      · rw [if_neg hc] at h
        rcases List.mem_cons.mp h with h1 | h1
        · exact Or.inl (h1 ▸ List.mem_cons_self d rest)
        · rcases ih _ _ _ h1 with h2 | h2
          · exact Or.inl (List.mem_cons_of_mem d h2)
          · exact Or.inr h2

theorem mem_pyReplace {c : Char} {s pat rep : List Char} :
    c ∈ pyReplace s pat rep → c ∈ s ∨ c ∈ rep :=
  mem_pyReplaceAux s.length s pat rep

/- replacing the single character `c` removes every occurrence of `c`,
provided the replacement does not itself contain `c` -/
theorem not_mem_pyReplaceAux_single {c : Char} {rep : List Char} (hrep : c ∉ rep) :
    ∀ (fuel : Nat) (s : List Char), s.length ≤ fuel → c ∉ pyReplaceAux fuel s [c] rep := by
  intro fuel
  induction fuel with
  | zero =>
    intro s hs
    have : s = [] := List.eq_nil_of_length_eq_zero (Nat.le_zero.mp hs)
    subst this
    simp [pyReplaceAux]
  | succ n ih =>
    intro s hs
    match s with
    | [] => simp [pyReplaceAux]
    | d :: rest =>
      rw [pyReplaceAux]
      by_cases hd : d = c
      · subst hd
        have hcond : ([d] : List Char) ≠ [] ∧ List.isPrefixOf [d] (d :: rest) := by
          refine ⟨by simp, ?_⟩
          simp [List.isPrefixOf]
        rw [if_pos hcond]
        intro hmem
        rcases List.mem_append.mp hmem with h1 | h1
        · exact hrep h1
        · have hlen : rest.length ≤ n := by
            have := Nat.le_of_succ_le_succ hs
            simpa using this
          exact ih rest hlen (by simpa using h1)
      · have hcond : ¬ (([c] : List Char) ≠ [] ∧ List.isPrefixOf [c] (d :: rest)) := by
          intro hx
          have := hx.2
          simp [List.isPrefixOf] at this
          exact hd this.symm
        rw [if_neg hcond]
        intro hmem
        rcases List.mem_cons.mp hmem with h1 | h1
        · exact hd h1.symm
        · have hlen : rest.length ≤ n := Nat.le_of_succ_le_succ (by simpa using hs)
          exact ih rest hlen h1

theorem newline_not_mem_normPage (s : List Char) : '\n' ∉ normPage s := by
  intro h
  have h1 : '\n' ∉ pyReplace s ("\n".data) (" ".data) := by
    have := @not_mem_pyReplaceAux_single '\n' (" ".data) (by decide)
      s.length s (Nat.le_refl _)
    simpa [pyReplace] using this
  rcases mem_pyReplace h with h2 | h2
  · exact h1 h2
  · simp at h2

theorem newline_not_mem_normChunk (s : List Char) : '\n' ∉ normChunk s := by
  intro h
  have h1 : '\n' ∉ pyReplace (pyStrip s) ("\n".data) (" ".data) := by
    have := @not_mem_pyReplaceAux_single '\n' (" ".data) (by decide)
      (pyStrip s).length (pyStrip s) (Nat.le_refl _)
    simpa [pyReplace] using this
  rcases mem_pyReplace h with h2 | h2
  · exact h1 h2
  · simp at h2

/- the long-chunk branch of `pageMatch`, rephrased with an integer threshold -/
theorem long_branch_eq {α : Type} (L : List α) (p : α → Bool) (num : Nat) :
    (if L.isEmpty then none
     else if ((L.countP p : ℚ) > (L.length : ℚ) * 0.5) then some num else none) =
    (if L.length < 2 * L.countP p then some num else none) := by
  by_cases hE : L.isEmpty
  · have hnil : L = [] := by simpa using hE
    subst hnil
    simp
  · rw [if_neg hE, if_congr (half_lt_iff _ _) rfl rfl]

theorem pageMatch_long (c : List Char) (pg : PageInfo) (h : 50 < c.length) :
    pageMatch c pg =
      (if (((pySplit c '.').map pyStrip).filter (fun t => 10 < t.length)).length <
            2 * (((pySplit c '.').map pyStrip).filter (fun t => 10 < t.length)).countP
                  (fun sentence => containsSub (normPage pg.text) sentence) then
         some pg.pageNumber
       else none) := by
  simp only [pageMatch]
  rw [if_pos h]
  exact long_branch_eq _ _ _

theorem pageMatch_short (c : List Char) (pg : PageInfo) (h : ¬ 50 < c.length) :
    pageMatch c pg =
      (if containsSub (normPage pg.text) c then some pg.pageNumber else none) := by
  simp only [pageMatch]
  rw [if_neg h]

/- ### lemmas about the FAISS search pipeline -/

theorem searchHit_none (docs : List (List Char)) (md : List Meta) (p : Nat × (ℚ × Int))
    (h : p.2.2 = -1) : searchHit docs md p = none := by
  simp [searchHit, h]

theorem searchHit_some (docs : List (List Char)) (md : List Meta) (p : Nat × (ℚ × Int))
    (h : p.2.2 ≠ -1) :
    searchHit docs md p =
      some ⟨docs.getD p.2.2.toNat [], md.getD p.2.2.toNat emptyMeta, p.2.1, p.1 + 1⟩ := by
  simp [searchHit, h]

/- `searchHit` keeps exactly the leading valid pairs, in order, with ranks
taken from the enumeration offset -/
theorem filterMap_searchHit_valid_pad (docs : List (List Char)) (md : List Meta) :
    ∀ (valid pad : List (ℚ × Int)) (off : Nat),
      (∀ x ∈ valid, (0 : Int) ≤ x.2) → (∀ x ∈ pad, x.2 = -1) →
      (List.enumFrom off (valid ++ pad)).filterMap (searchHit docs md) =
        (List.enumFrom off valid).map (fun p =>
          ⟨docs.getD p.2.2.toNat [], md.getD p.2.2.toNat emptyMeta, p.2.1, p.1 + 1⟩) := by
  intro valid
  induction valid with
  | nil =>
    intro pad
    induction pad with
    | nil => intro off _ _; rfl
    | cons x pt ihp =>
      intro off hv hp
      have hx : x.2 = -1 := hp x (List.mem_cons_self _ _)
      simp only [List.nil_append, List.enumFrom, List.filterMap_cons,
        searchHit_none docs md (off, x) hx]
      simpa using ihp (off + 1) hv (fun y hy => hp y (List.mem_cons_of_mem _ hy))
  | cons v vt ihv =>
    intro pad off hv hp
    have hvv : (0 : Int) ≤ v.2 := hv v (List.mem_cons_self _ _)
    have hne : v.2 ≠ -1 := by omega
    simp only [List.cons_append, List.enumFrom, List.filterMap_cons,
      searchHit_some docs md (off, v) hne, List.map_cons, List.append_eq]
    rw [ihv pad (off + 1) (fun y hy => hv y (List.mem_cons_of_mem _ hy)) hp]

/-- `VectorStore.search` in closed form: the enumerated, ranked top-`k` slice
of the sorted scored pairs. -/
theorem search_eq_map (sq : ℚ → ℚ) (s : VectorStore) (q : Vec) (k : Nat) :
    s.search sq q k =
      (List.enumFrom 0 ((List.insertionSort rcmp
          (s.index.vectors.enum.map
            (fun p => (innerQ (normalizeVec sq q) p.2, (p.1 : Int))))).take k)).map
        (fun p =>
          ⟨s.documents.getD p.2.2.toNat [], s.metadata.getD p.2.2.toNat emptyMeta,
            p.2.1, p.1 + 1⟩) := by
  have hv : ∀ x ∈ (List.insertionSort rcmp
      (s.index.vectors.enum.map
        (fun p => (innerQ (normalizeVec sq q) p.2, (p.1 : Int))))).take k,
      (0 : Int) ≤ x.2 := by
    intro x hx
    have hx2 := (List.mem_insertionSort rcmp).mp (List.take_subset _ _ hx)
    obtain ⟨p, _, hpx⟩ := List.mem_map.mp hx2
    rw [← hpx]
    exact Int.natCast_nonneg p.1
  have hp : ∀ x ∈ List.replicate
      (k - ((List.insertionSort rcmp
        (s.index.vectors.enum.map
          (fun p => (innerQ (normalizeVec sq q) p.2, (p.1 : Int))))).take k).length)
      ((0 : ℚ), (-1 : Int)), x.2 = -1 := by
    intro x hx
    rw [List.eq_of_mem_replicate hx]
  simp only [VectorStore.search, FaissIndex.searchQ, List.enum_eq_enumFrom]
  exact filterMap_searchHit_valid_pad s.documents s.metadata _ _ 0 hv hp

theorem pairwise_enumFrom {α : Type} {R : α → α → Prop} :
    ∀ (n : Nat) (l : List α), List.Pairwise R l →
      List.Pairwise (fun p q => R p.2 q.2) (List.enumFrom n l) := by
  intro n l
  induction l generalizing n with
  | nil => intro _; simp
  | cons a t ih =>
    intro h
    rcases List.pairwise_cons.mp h with ⟨ha, ht⟩
    simp only [List.enumFrom]
    refine List.pairwise_cons.mpr ⟨?_, ih (n + 1) ht⟩
    intro p hp
    exact ha p.2 (List.snd_mem_of_mem_enumFrom hp)

/- the first components of the scored pairs are exactly the inner products
against the stored vectors -/
theorem scored_map_fst (qn : Vec) (vectors : List Vec) :
    (vectors.enum.map (fun p => (innerQ qn p.2, (p.1 : Int)))).map Prod.fst =
      vectors.map (innerQ qn) := by
  rw [List.map_map]
  have : (Prod.fst ∘ fun p : Nat × Vec => (innerQ qn p.2, (p.1 : Int))) =
      (innerQ qn) ∘ Prod.snd := rfl
  rw [this, ← List.map_map, List.enum_map_snd]

/- ### claim theorems: vector store -/

/-- C1: for every sequence of `add_documents` calls each supplying equally
many chunk documents and embedding rows, starting from any aligned store, the
three parallel stores (FAISS vectors, contents, metadata) remain equally long
after every operation, and each original store is a prefix of the final one —
entries are only appended and every existing entry keeps its position.
(Intermediate states are covered by instantiating `init` at any point of the
sequence.) -/
theorem C1_parallel_stores_aligned (sq : ℚ → ℚ) (ops : List (List Document × List Vec))
    (init : VectorStore) (hops : ∀ op ∈ ops, op.1.length = op.2.length)
    (hinit : AlignedStore init) :
    AlignedStore (runAdds sq init ops) ∧
    init.documents <+: (runAdds sq init ops).documents ∧
    init.metadata <+: (runAdds sq init ops).metadata ∧
    init.index.vectors <+: (runAdds sq init ops).index.vectors := by
  revert hops hinit
  induction ops generalizing init with
  | nil =>
    intro hops hinit
    simp only [runAdds]
    exact ⟨hinit, List.prefix_refl _, List.prefix_refl _, List.prefix_refl _⟩
  | cons op ops ih =>
    intro hops hinit
    simp only [runAdds]
    have hlen : op.1.length = op.2.length := hops op (List.mem_cons_self _ _)
    have hstep : AlignedStore (init.addDocuments sq op.1 op.2) := by
      obtain ⟨h1, h2⟩ := hinit
      constructor
      · simp [VectorStore.addDocuments, FaissIndex.add, normalizeRows, h1, hlen]
      · simp [VectorStore.addDocuments, FaissIndex.add, normalizeRows, h2, hlen]
    have hrec := ih (init.addDocuments sq op.1 op.2)
      (fun o ho => hops o (List.mem_cons_of_mem _ ho)) hstep
    refine ⟨hrec.1, ?_, ?_, ?_⟩
    · exact (List.prefix_append _ _).trans hrec.2.1
    · exact (List.prefix_append _ _).trans hrec.2.2.1
    · exact (List.prefix_append _ _).trans hrec.2.2.2

/-- Witness for C1 at one concrete balanced operation. -/
theorem C1_parallel_stores_aligned_witness :
    (∀ op ∈ demoOps, op.1.length = op.2.length) ∧ AlignedStore demoInit ∧
    (AlignedStore (runAdds (fun x => x) demoInit demoOps) ∧
     demoInit.documents <+: (runAdds (fun x => x) demoInit demoOps).documents ∧
     demoInit.metadata <+: (runAdds (fun x => x) demoInit demoOps).metadata ∧
     demoInit.index.vectors <+: (runAdds (fun x => x) demoInit demoOps).index.vectors) :=
  ⟨by decide, by decide,
    C1_parallel_stores_aligned (fun x => x) demoOps demoInit (by decide) (by decide)⟩

/-- C5: for an index holding `n ≥ 1` entries, a non-zero query and `k ≥ 1`,
`search` returns exactly `min k n` results; their ranks are the contiguous
1-based positions `1..min k n`; their scores are in descending order; the
top-ranked result's score is the maximum inner product between the normalized
query and the stored (already normalized) vectors — exact in the rational
model, hence within any floating-point tolerance; and the selected pairs are
sorted under `rcmp`, so equal scores are broken in favor of the
earlier-inserted (smaller id) entry. -/
theorem C5_search_topk (sq : ℚ → ℚ) (s : VectorStore) (q : Vec) (k : Nat)
    (hal : AlignedStore s) (hn : 1 ≤ s.index.vectors.length) (hq : sumSq q ≠ 0)
    (hk : 1 ≤ k) :
    (s.search sq q k).length = min k s.index.vectors.length ∧
    (s.search sq q k).map SearchResult.rank =
      (List.range (min k s.index.vectors.length)).map (fun i => i + 1) ∧
    List.Pairwise (fun a b => SearchResult.score b ≤ SearchResult.score a)
      (s.search sq q k) ∧
    (∀ r, (s.search sq q k).head? = some r →
      r.score ∈ s.index.vectors.map (innerQ (normalizeVec sq q)) ∧
      ∀ c ∈ s.index.vectors.map (innerQ (normalizeVec sq q)), c ≤ r.score) ∧
    List.Sorted rcmp
      ((s.index.searchQ (normalizeVec sq q) k).take (min k s.index.vectors.length)) := by
  rw [search_eq_map]
  set qn := normalizeVec sq q with hqn
  set scored := s.index.vectors.enum.map (fun p => (innerQ qn p.2, (p.1 : Int))) with hsc
  set sorted := List.insertionSort rcmp scored with hso
  set valid := sorted.take k with hva
  have hsor : List.Sorted rcmp sorted := List.sorted_insertionSort rcmp scored
  have hperm : sorted.Perm scored := List.perm_insertionSort rcmp scored
  have hlen_sc : scored.length = s.index.vectors.length := by
    rw [hsc]; simp
  have hlen_so : sorted.length = s.index.vectors.length := by
    rw [hperm.length_eq, hlen_sc]
  have hvl : valid.length = min k s.index.vectors.length := by
    rw [hva, List.length_take, hlen_so]
  have hsorted_valid : List.Sorted rcmp valid :=
    hsor.sublist (hva ▸ List.take_sublist k sorted)
  refine ⟨?_, ?_, ?_, ?_, ?_⟩
  · rw [List.length_map, List.enumFrom_length]
    exact hvl
  · rw [List.map_map]
    show (List.enumFrom 0 valid).map ((fun i => i + 1) ∘ Prod.fst) =
      (List.range (min k s.index.vectors.length)).map (fun i => i + 1)
    rw [← List.map_map, List.enumFrom_map_fst, ← List.range_eq_range', hvl]
  · rw [List.pairwise_map]
    have h3 : List.Pairwise (fun a b : ℚ × Int => b.1 ≤ a.1) valid :=
      hsorted_valid.imp (fun hab => hab.elim le_of_lt (fun h => le_of_eq h.1.symm))
    exact pairwise_enumFrom 0 valid h3
  · intro r hr
    have hmin : 1 ≤ min k s.index.vectors.length := le_min hk hn
    have hvnil : valid ≠ [] := by
      intro hnil
      have h0 : valid.length = 0 := by rw [hnil]; rfl
      rw [hvl] at h0
      omega
    obtain ⟨x, vt, hx⟩ := List.exists_cons_of_ne_nil hvnil
    rw [hx] at hr
    simp only [List.enumFrom, List.map_cons, List.head?_cons, Option.some.injEq] at hr
    subst hr
    have hxv : x ∈ valid := hx ▸ List.mem_cons_self x vt
    have hxs : x ∈ sorted := List.take_subset k sorted (hva ▸ hxv)
    have hxsc : x ∈ scored := hperm.mem_iff.mp hxs
    constructor
    · have hmem : x.1 ∈ scored.map Prod.fst := List.mem_map_of_mem Prod.fst hxsc
      rw [hsc, scored_map_fst] at hmem
      exact hmem
    · intro c hc
      have hceq : c ∈ scored.map Prod.fst := by
        rw [hsc, scored_map_fst]
        exact hc
      obtain ⟨y, hy, hyc⟩ := List.mem_map.mp hceq
      have hsnil : sorted ≠ [] := by
        intro hnil
        rw [hnil] at hlen_so
        simp at hlen_so
        omega
      obtain ⟨z, st, hz⟩ := List.exists_cons_of_ne_nil hsnil
      obtain ⟨k1, rfl⟩ : ∃ k1, k = k1 + 1 := ⟨k - 1, by omega⟩
      have hxz : x = z := by
        have h5 : x :: vt = z :: List.take k1 st := by
          rw [← hx, hva, hz, List.take_succ_cons]
        injection h5 with h5a h5b
      have hdom : ∀ w ∈ sorted, w.1 ≤ x.1 := by
        intro w hw
        rcases List.mem_cons.mp (hz ▸ hw) with h6 | h6
        · rw [h6, hxz]
        · have h7 := (List.pairwise_cons.mp (hz ▸ hsor)).1 w h6
          rw [hxz]
          exact h7.elim le_of_lt (fun hh => le_of_eq hh.1.symm)
      rw [← hyc]
      exact hdom y (hperm.mem_iff.mpr hy)
  · show List.Sorted rcmp
      ((valid ++ List.replicate (k - valid.length) ((0 : ℚ), (-1 : Int))).take
        (min k s.index.vectors.length))
    rw [List.take_left' hvl]
    exact hsorted_valid

/-- Witness for C5: two entries `[1,0]`, `[0,1]`, query `[1,0]`, `k = 1`. -/
theorem C5_search_topk_witness :
    AlignedStore c5Store ∧ 1 ≤ c5Store.index.vectors.length ∧
    sumSq [(1 : ℚ), 0] ≠ 0 ∧ (1 : Nat) ≤ 1 ∧
    ((c5Store.search (fun x => x) [1, 0] 1).length = min 1 c5Store.index.vectors.length ∧
     (c5Store.search (fun x => x) [1, 0] 1).map SearchResult.rank =
       (List.range (min 1 c5Store.index.vectors.length)).map (fun i => i + 1) ∧
     List.Pairwise (fun a b => SearchResult.score b ≤ SearchResult.score a)
       (c5Store.search (fun x => x) [1, 0] 1) ∧
     (∀ r, (c5Store.search (fun x => x) [1, 0] 1).head? = some r →
       r.score ∈ c5Store.index.vectors.map (innerQ (normalizeVec (fun x => x) [1, 0])) ∧
       ∀ c ∈ c5Store.index.vectors.map (innerQ (normalizeVec (fun x => x) [1, 0])),
         c ≤ r.score) ∧
     List.Sorted rcmp
       ((c5Store.index.searchQ (normalizeVec (fun x => x) [1, 0]) 1).take
         (min 1 c5Store.index.vectors.length))) :=
  ⟨by decide, by decide, by simp [sumSq], by decide,
    C5_search_topk (fun x => x) c5Store [1, 0] 1 (by decide) (by decide) (by simp [sumSq])
      (by decide)⟩

/-- C2: saving a store bound to a path prefix and then explicitly loading into
a freshly constructed store of the same dimension restores a state whose
`search` output (contents, metadata, ranks and exact scores in the rational
model) is identical to the pre-save store's, for every query and `k`. -/
theorem C2_save_load_roundtrip (sq : ℚ → ℚ) (s : VectorStore) (fs : FS) (p : List Char)
    (q : Vec) (k : Nat) (hpath : s.indexPath = some p) (hne : s.documents ≠ []) :
    ((VectorStore.mk0 s.dimension (some p)).load (s.save fs)).search sq q k =
      s.search sq q k := by
  obtain ⟨d, idx, docs, md, path⟩ := s
  have hp : path = some p := hpath
  subst hp
  have hne2 : (p ++ ".faiss".data) ≠ (p ++ ".pkl".data) := by
    intro hcontra
    have h2 := List.append_cancel_left hcontra
    exact absurd h2 (by decide)
  simp [VectorStore.save, VectorStore.load, VectorStore.mk0, fsLookup, hne2]

/-- Witness for C2: one entry saved and reloaded, searched with `[1, 0]`. -/
theorem C2_save_load_roundtrip_witness :
    c3Store.indexPath = some c3Path ∧ c3Store.documents ≠ [] ∧
    ((VectorStore.mk0 c3Store.dimension (some c3Path)).load
        (c3Store.save [])).search (fun x => x) [1, 0] 1 =
      c3Store.search (fun x => x) [1, 0] 1 :=
  ⟨rfl, by decide,
    C2_save_load_roundtrip (fun x => x) c3Store [] c3Path [1, 0] 1 rfl (by decide)⟩

/-- C3 (code evaluated at the failing input): after `save` under path prefix
`c3Path`, the artifacts `c3Path.faiss` and `c3Path.pkl` exist but no file at
the bare prefix does; since `__init__` tests `os.path.exists(index_path)` on
the bare prefix, constructing a new store with the same prefix performs no
load and starts empty, despite the persisted entries. -/
theorem C3_construct_ignores_persisted :
    c3Store.documents ≠ [] ∧
    fsExists c3FS (c3Path ++ ".faiss".data) = true ∧
    fsExists c3FS (c3Path ++ ".pkl".data) = true ∧
    fsExists c3FS c3Path = false ∧
    VectorStore.init 2 (some c3Path) c3FS = VectorStore.mk0 2 (some c3Path) ∧
    (VectorStore.init 2 (some c3Path) c3FS).documents = [] := by
  decide

/-- C4 (code evaluated at the failing input): the norm of the zero vector is
0, yet `add_documents` performs the row division anyway and stores the
resulting degenerate row (the model's total-field convention `x / 0 = 0`
stands in for the IEEE `0.0 / 0.0 = NaN`), and `search` with the zero query
likewise divides, proceeds, and returns a fully formed result — no branch
treats the zero vector as a domain error. -/
theorem C4_zero_vector_unguarded :
    sumSq zeroVec2 = 0 ∧
    ((VectorStore.mk0 2 none).addDocuments (fun x => x) [⟨"z".data, emptyMeta⟩]
        [zeroVec2]).index.vectors = [normalizeVec (fun x => x) zeroVec2] ∧
    ((VectorStore.mk0 2 none).addDocuments (fun x => x) [⟨"z".data, emptyMeta⟩]
        [zeroVec2]).index.vectors.length = 1 ∧
    c4Store.search (fun x => x) zeroVec2 1 = [⟨"hello world".data, emptyMeta, 0, 1⟩] := by
  refine ⟨by simp [sumSq, zeroVec2], ?_, ?_, ?_⟩
  · simp [VectorStore.addDocuments, VectorStore.mk0, FaissIndex.add, normalizeRows]
  · simp [VectorStore.addDocuments, VectorStore.mk0, FaissIndex.add, normalizeRows]
  · have hq : normalizeVec (fun x => x) zeroVec2 = [0, 0] := by
      simp [normalizeVec, sumSq, zeroVec2]
    have hv : normalizeVec (fun x => x) [1, 0] = [1, 0] := by
      norm_num [normalizeVec, sumSq]
    simp [c4Store, VectorStore.search, VectorStore.addDocuments, VectorStore.mk0,
      FaissIndex.add, FaissIndex.searchQ, normalizeRows, hq, hv, innerQ, demoDoc,
      searchHit, List.insertionSort, List.orderedInsert, emptyMeta]

/- ### claim theorems: orchestrator -/

/-- C9 counterexample: with no generation backend configured, the zero-result
query path sets the answer to Python `None`, not to the "nothing found"
sentinel, so the claim's "answer set to an explicit sentinel" fails. -/
theorem C9_counterexample :
    (demoSystem.query (fun x => x) ("anything".data) 5).searchResults = [] ∧
    (demoSystem.query (fun x => x) ("anything".data) 5).sources = [] ∧
    (demoSystem.query (fun x => x) ("anything".data) 5).answer = none ∧
    (demoSystem.query (fun x => x) ("anything".data) 5).answer ≠ some noRelevantMsg := by
  refine ⟨?_, ?_, ?_, ?_⟩ <;> decide

/-- C9 (amended): whenever the index search for a query returns zero results,
`query` returns (totally, never raising) with empty sources, empty search
results, and an answer equal to the "nothing found" sentinel **when a
generation backend is configured** and to `None` otherwise; the generation
backend is never invoked — the result does not depend on the generation
function at all. -/
theorem C9_no_results_response (sq : ℚ → ℚ) (sys : RAGSystem) (question : List Char)
    (k : Nat)
    (h : sys.vectorStore.search sq (sys.embeddingProvider.encodeQuery question) k = []) :
    (sys.query sq question k).sources = [] ∧
    (sys.query sq question k).searchResults = [] ∧
    (sys.query sq question k).answer =
      (if sys.llm.isSome then some noRelevantMsg else none) ∧
    (∀ g1 g2 : List Char → List Char → List Char,
      ({ sys with llm := some g1 } : RAGSystem).query sq question k =
        ({ sys with llm := some g2 } : RAGSystem).query sq question k) := by
  refine ⟨?_, ?_, ?_, ?_⟩ <;> simp [RAGSystem.query, h]

/-- Witness for C9 (amended) on the empty demo system. -/
theorem C9_no_results_response_witness :
    demoSystem.vectorStore.search (fun x => x)
      (demoSystem.embeddingProvider.encodeQuery ("anything".data)) 5 = [] ∧
    ((demoSystem.query (fun x => x) ("anything".data) 5).sources = [] ∧
     (demoSystem.query (fun x => x) ("anything".data) 5).searchResults = [] ∧
     (demoSystem.query (fun x => x) ("anything".data) 5).answer =
       (if demoSystem.llm.isSome then some noRelevantMsg else none) ∧
     (∀ g1 g2 : List Char → List Char → List Char,
       ({ demoSystem with llm := some g1 } : RAGSystem).query (fun x => x)
           ("anything".data) 5 =
         ({ demoSystem with llm := some g2 } : RAGSystem).query (fun x => x)
           ("anything".data) 5)) :=
  ⟨by decide,
    C9_no_results_response (fun x => x) demoSystem ("anything".data) 5 (by decide)⟩

/-- C10: ingesting a document whose content yields zero chunks is a total
no-op on the orchestrator state: the resulting system equals the original,
and in particular the vector index's entry counts are unchanged. -/
theorem C10_empty_ingest_noop (sq : ℚ → ℚ) (sys : RAGSystem) (fs : FS)
    (document : Document) (h : sys.splitText document.content = []) :
    (sys.addDocument sq fs document).1 = sys ∧
    (sys.addDocument sq fs document).1.vectorStore.documents.length =
      sys.vectorStore.documents.length ∧
    (sys.addDocument sq fs document).1.vectorStore.index.vectors.length =
      sys.vectorStore.index.vectors.length ∧
    (sys.addDocument sq fs document).1.vectorStore.metadata.length =
      sys.vectorStore.metadata.length := by
  have hmain : (sys.addDocument sq fs document).1 = sys := by
    simp [RAGSystem.addDocument, h, EmbeddingProvider.encode, VectorStore.addDocuments,
      normalizeRows, FaissIndex.add]
  exact ⟨hmain, by rw [hmain], by rw [hmain], by rw [hmain]⟩

/-- Witness for C10 on the demo system whose splitter yields no chunks. -/
theorem C10_empty_ingest_noop_witness :
    demoSystem.splitText demoDoc.content = [] ∧
    ((demoSystem.addDocument (fun x => x) [] demoDoc).1 = demoSystem ∧
     (demoSystem.addDocument (fun x => x) [] demoDoc).1.vectorStore.documents.length =
       demoSystem.vectorStore.documents.length ∧
     (demoSystem.addDocument (fun x => x) [] demoDoc).1.vectorStore.index.vectors.length =
       demoSystem.vectorStore.index.vectors.length ∧
     (demoSystem.addDocument (fun x => x) [] demoDoc).1.vectorStore.metadata.length =
       demoSystem.vectorStore.metadata.length) :=
  ⟨rfl, C10_empty_ingest_noop (fun x => x) demoSystem [] demoDoc rfl⟩

/- ### claim theorems: page attributor -/

/-- C6 counterexample: the claim says fragments *shorter than 10* characters
are discarded, but the source keeps only fragments with `len > 10`, also
discarding fragments of exactly 10 characters.  On `tenCharChunk` (normalized
length 55 > 50) whose only long fragment has exactly 10 characters, the
source attributes no page while the claim's rule attributes page 1. -/
theorem C6_counterexample :
    50 < (normChunk tenCharChunk).length ∧
    findChunkPages tenCharChunk tenCharPages = [] ∧
    claimC6Attrib tenCharChunk tenCharPages = [1] ∧
    findChunkPages tenCharChunk tenCharPages ≠ claimC6Attrib tenCharChunk tenCharPages := by
  decide

/-- C6 (amended): for every chunk whose normalized text is longer than 50
characters, the Page Attributor splits the chunk on periods into candidate
sentences, discards fragments of **10 or fewer** characters after trimming,
and attributes exactly those pages for which strictly more than half of the
surviving candidate sentences occur as substrings of the page's normalized
text. -/
theorem C6_amended_long_attribution (chunkText : List Char) (pagesInfo : List PageInfo)
    (h : 50 < (normChunk chunkText).length) :
    findChunkPages chunkText pagesInfo =
      (pagesInfo.filter (fun pg =>
        (((pySplit (normChunk chunkText) '.').map pyStrip).filter (fun t => 10 < t.length)).length <
          2 * (((pySplit (normChunk chunkText) '.').map pyStrip).filter
                (fun t => 10 < t.length)).countP
                (fun sentence => containsSub (normPage pg.text) sentence))).map
        PageInfo.pageNumber := by
  unfold findChunkPages
  rw [filterMap_congr_own pagesInfo (fun pg _ => pageMatch_long (normChunk chunkText) pg h)]
  exact filterMap_ite_prop _ _ _

/-- Witness for C6 (amended) at the concrete 55-character chunk. -/
theorem C6_amended_long_attribution_witness :
    50 < (normChunk tenCharChunk).length ∧
    findChunkPages tenCharChunk tenCharPages =
      (tenCharPages.filter (fun pg =>
        (((pySplit (normChunk tenCharChunk) '.').map pyStrip).filter
              (fun t => 10 < t.length)).length <
          2 * (((pySplit (normChunk tenCharChunk) '.').map pyStrip).filter
                (fun t => 10 < t.length)).countP
                (fun sentence => containsSub (normPage pg.text) sentence))).map
        PageInfo.pageNumber :=
  ⟨by decide, C6_amended_long_attribution tenCharChunk tenCharPages (by decide)⟩

/-- C7 counterexample: normalization is a *single* left-to-right
`replace('  ', ' ')` pass, so a run of four spaces collapses to two spaces,
and the normalized text still contains two consecutive spaces — contradicting
the claim that no normalized text contains two or more consecutive spaces. -/
theorem C7_counterexample :
    normChunk ("a    b".data) = "a  b".data ∧
    normPage ("a    b".data) = "a  b".data ∧
    containsSub (normChunk ("a    b".data)) ("  ".data) = true ∧
    containsSub (normPage ("a    b".data)) ("  ".data) = true := by
  decide

/-- C7 (amended): the Page Attributor's normalization replaces every newline
by a space and then runs one left-to-right pass replacing each non-overlapping
pair of adjacent spaces by a single space; newlines never survive into the
normalized text, but whitespace runs are only halved per pass, so runs of four
or more spaces can leave two or more consecutive spaces (e.g. four spaces
normalize to two). -/
theorem C7_amended_normalization :
    (∀ s : List Char, '\n' ∉ normPage s) ∧
    (∀ s : List Char, '\n' ∉ normChunk s) ∧
    normChunk ("a    b".data) = "a  b".data ∧
    normPage ("a      b".data) = "a   b".data :=
  ⟨newline_not_mem_normPage, newline_not_mem_normChunk, by decide, by decide⟩

/-- C8: for every chunk whose normalized text is at most 50 characters long,
the Page Attributor attributes exactly the pages whose normalized text
contains the full normalized chunk as a substring; a chunk matching exactly
one page yields that singleton page list; and the two-page scenario chunk
"It slept all day." attributes to page 1 only. -/
theorem C8_short_chunk_attribution (chunkText : List Char) (pagesInfo : List PageInfo)
    (h : (normChunk chunkText).length ≤ 50) :
    findChunkPages chunkText pagesInfo =
      (pagesInfo.filter (fun pg => containsSub (normPage pg.text) (normChunk chunkText))).map
        PageInfo.pageNumber ∧
    (∀ pg : PageInfo,
      pagesInfo.filter (fun x => containsSub (normPage x.text) (normChunk chunkText)) = [pg] →
      findChunkPages chunkText pagesInfo = [pg.pageNumber]) ∧
    findChunkPages scenarioChunk scenarioPages = [1] := by
  have h' : ¬ 50 < (normChunk chunkText).length := Nat.not_lt.mpr h
  have hmain : findChunkPages chunkText pagesInfo =
      (pagesInfo.filter (fun pg => containsSub (normPage pg.text) (normChunk chunkText))).map
        PageInfo.pageNumber := by
    unfold findChunkPages
    rw [filterMap_congr_own pagesInfo (fun pg _ => pageMatch_short (normChunk chunkText) pg h')]
    exact filterMap_ite _ _ _
  refine ⟨hmain, ?_, by decide⟩
  intro pg hpg
  rw [hmain, hpg]
  rfl

/-- Witness for C8 at the scenario chunk and pages. -/
theorem C8_short_chunk_attribution_witness :
    (normChunk scenarioChunk).length ≤ 50 ∧
    (findChunkPages scenarioChunk scenarioPages =
      (scenarioPages.filter
          (fun pg => containsSub (normPage pg.text) (normChunk scenarioChunk))).map
        PageInfo.pageNumber ∧
    (∀ pg : PageInfo,
      scenarioPages.filter (fun x => containsSub (normPage x.text) (normChunk scenarioChunk)) =
        [pg] →
      findChunkPages scenarioChunk scenarioPages = [pg.pageNumber]) ∧
    findChunkPages scenarioChunk scenarioPages = [1]) :=
  ⟨by decide, C8_short_chunk_attribution scenarioChunk scenarioPages (by decide)⟩


end LeafraRag
